import Mathlib

/-!
Verification of the kdtreed daemon (Go, two near-identical source files:
`daemon.go` and the unnamed variant `part_000`).

The parser and session loop are embedded shallowly: Go strings become
`List Char` (the inputs of interest are ASCII, where Go's byte positions
coincide with character positions), the mutable `Expr` parser object becomes
a structure threaded through each rule, and the regular expressions used by
the source (the literal patterns `ADD|DEL|KNN|END`, a brace point shape, and
a digit run) are embedded as executable leftmost-match scanners with Go's
leftmost-first semantics.  The kyroy/kdtree spatial index is an external
dependency whose code is not part of this repository; its operations are
modelled from the specification, and every such definition is marked
`Modelled from the spec:` in its doc comment.
-/

namespace Kdtreed

/-- The literal keyword ADD of the action token alternation in the source. -/
def kwADD : List Char := ['A', 'D', 'D']

/-- The literal keyword DEL of the action token alternation in the source. -/
def kwDEL : List Char := ['D', 'E', 'L']

/-- The literal keyword KNN of the action token alternation in the source. -/
def kwKNN : List Char := ['K', 'N', 'N']

/-- The literal keyword END of the action token alternation in the source. -/
def kwEND : List Char := ['E', 'N', 'D']

/-- Embeds the Go struct `Data { value int }`. -/
structure Data where
  value : Int
deriving DecidableEq

/-- Embeds the Go struct `Expr`: the parser's buffer, cursor and the fields
filled in by the grammar rules.  The Go zero value initialises `action` to the
empty string, `point` to nil, `data` to `Data{0}` and `valid` to false. -/
structure Expr where
  buffer : List Char
  position : Nat
  action : List Char
  point : List Int
  data : Data
  valid : Bool
deriving DecidableEq

/-- Embeds the method `Current`: the buffer from the cursor on. -/
def Current (e : Expr) : List Char := e.buffer.drop e.position

/-- One iteration bound of the Go loop `for x := range expr.buffer[expr.position:]`.
Go binds `x` to the byte index of the iteration, and `string(x)` converts that
index to the character with code point `x`, so the loop compares the index, not
the buffer character, against a space.  The `remaining` argument counts the
iterations left. -/
def skipLoop (position x : Nat) : Nat → Nat
  | 0 => position
  | remaining + 1 =>
      if Char.ofNat x = ' ' then skipLoop (position + 1) (x + 1) remaining else position

/-- Embeds the Go method `SkipWhitespace`.  Because the loop compares the
index-as-character against a space (see `skipLoop`), the very first iteration
compares the character with code point 0 against a space and breaks, so the
method never moves the cursor. -/
def SkipWhitespace (e : Expr) : Expr :=
  { e with position := skipLoop e.position 0 (e.buffer.length - e.position) }

/-- Attempts the alternation pattern of actions at the start of the string:
the compiled decision of the regular expression ADD or DEL or KNN or END
at one candidate position.  The four keywords start with distinct letters,
so at most one alternative can match at a given position. -/
def matchKeywordAt (s : List Char) : Option (List Char) :=
  match s with
  | 'A' :: 'D' :: 'D' :: _ => some kwADD
  | 'D' :: 'E' :: 'L' :: _ => some kwDEL
  | 'K' :: 'N' :: 'N' :: _ => some kwKNN
  | 'E' :: 'N' :: 'D' :: _ => some kwEND
  | _ => none

/-- The matched text of the point pattern for digit groups `d1` and `d2`:
an opening brace, the first digit group, a comma, a space, the second digit
group and a closing brace. -/
def pointTok (d1 d2 : List Char) : List Char :=
  '{' :: (d1 ++ ',' :: ' ' :: (d2 ++ ['}']))

/-- Attempts the point pattern (open brace, one or more digits, a literal
comma-space, one or more digits, close brace) at the start of the string.
The greedy digit groups are equivalent to maximal digit runs, because a
shorter run would leave a digit where the pattern requires a comma or a
closing brace. -/
def matchPointAt (s : List Char) : Option (List Char) :=
  match s with
  | [] => none
  | c :: rest =>
    if c = '{' then
      let d1 := rest.takeWhile Char.isDigit
      let r1 := rest.dropWhile Char.isDigit
      if d1 = [] then none
      else
        match r1 with
        | ',' :: ' ' :: r2 =>
          let d2 := r2.takeWhile Char.isDigit
          let r3 := r2.dropWhile Char.isDigit
          if d2 = [] then none
          else
            match r3 with
            | '}' :: _ => some (pointTok d1 d2)
            | _ => none
        | _ => none
    else none

/-- Attempts the digit-run pattern (one or more digits) at the start of the
string: the greedy match is the maximal digit run. -/
def matchDigitsAt (s : List Char) : Option (List Char) :=
  let d := s.takeWhile Char.isDigit
  if d = [] then none else some d

/-- Embeds the leftmost-match search of Go's `Regexp.Find`: candidate start
positions are tried left to right and the first position where the pattern
matches wins. -/
def reFind (matchAt : List Char → Option (List Char)) : List Char → Option (List Char)
  | [] => matchAt []
  | c :: cs =>
    match matchAt (c :: cs) with
    | some m => some m
    | none => reFind matchAt cs

/-- The compiled search for the action alternation pattern. -/
def findKeyword : List Char → Option (List Char) := reFind matchKeywordAt

/-- The compiled search for the point pattern. -/
def findPoint : List Char → Option (List Char) := reFind matchPointAt

/-- The compiled search for the digit-run pattern. -/
def findDigits : List Char → Option (List Char) := reFind matchDigitsAt

/-- The numeric value of a digit string, most significant digit first. -/
def digitsVal (s : List Char) : Nat :=
  s.foldl (fun a c => 10 * a + (c.toNat - 48)) 0

/-- Embeds `strconv.Atoi` on the tokens the parser feeds it, which are always
nonempty digit runs: the value of the digits, clamped at the largest 64-bit
signed integer on overflow (the callers discard the range error, keeping the
clamped value). -/
def Atoi (s : List Char) : Int :=
  if s ≠ [] ∧ s.all Char.isDigit then ((min (digitsVal s) (2 ^ 63 - 1) : Nat) : Int) else 0

/-- Accumulator loop for the maximal digit runs of a string; `cur` is the
current run, reversed. -/
def runsAux (cur : List Char) : List Char → List (List Char)
  | [] => if cur = [] then [] else [cur.reverse]
  | c :: cs =>
    if c.isDigit then runsAux (c :: cur) cs
    else if cur = [] then runsAux [] cs else cur.reverse :: runsAux [] cs

/-- Embeds `regexp.MustCompile` of the digit-run pattern followed by
`FindAllString(p, -1)`: the maximal digit runs of the string, left to right. -/
def findAllDigitRuns (s : List Char) : List (List Char) := runsAux [] s

/-- Embeds the Go function `MakePoint`: the first two digit runs of the token,
converted with `Atoi`.  The Go code indexes `rst[0]` and `rst[1]` directly and
would panic if fewer than two runs existed; here the access is total via a
default, and the safety claim shows the tokens reaching this function always
carry exactly two runs.  The final Go conversion to float64 is elided: it is
exact for values below 2^53, the range the parsing theorems assume. -/
def MakePoint (p : List Char) : List Int :=
  [Atoi ((findAllDigitRuns p).getD 0 []), Atoi ((findAllDigitRuns p).getD 1 [])]

/-- Embeds the Go function `Match` for one of the three compiled patterns:
skip whitespace (a no-op, see `SkipWhitespace`), search the remaining buffer
for the leftmost occurrence of the pattern, and on success advance the cursor
by the length of the match (not to the end of the occurrence).  The
`regexp.Compile` error branch is dead because the three patterns in the
source are fixed valid literals. -/
def Match (find : List Char → Option (List Char)) (e : Expr) : (List Char × Bool) × Expr :=
  let e1 := SkipWhitespace e
  match find (Current e1) with
  | some m => ((m, true), { e1 with position := e1.position + m.length })
  | none => (([], false), e1)

/-- Embeds `IsAction`: match the action alternation, record the keyword on
success, reset the cursor to 0 on failure. -/
def IsAction (e : Expr) : Bool × Expr :=
  let r := Match findKeyword e
  if r.1.2 then (true, { r.2 with action := r.1.1 })
  else (false, { r.2 with position := 0 })

/-- Embeds `IsEndAction`: run `IsAction` and keep its result only when the
recorded action is END; otherwise reset the cursor and fail. -/
def IsEndAction (e : Expr) : Bool × Expr :=
  let r := IsAction e
  if r.2.action = kwEND then r
  else (false, { r.2 with position := 0 })

/-- Embeds `IsPoint`: match the point pattern, record the decoded point on
success, reset the cursor to 0 on failure. -/
def IsPoint (e : Expr) : Bool × Expr :=
  let r := Match findPoint e
  if r.1.2 then (true, { r.2 with point := MakePoint r.1.1 })
  else (false, { r.2 with position := 0 })

/-- Embeds `IsData`: match a digit run, record its value on success, reset the
cursor to 0 on failure. -/
def IsData (e : Expr) : Bool × Expr :=
  let r := Match findDigits e
  if r.1.2 then (true, { r.2 with data := ⟨Atoi r.1.1⟩ })
  else (false, { r.2 with position := 0 })

/-- Embeds `IsCommand`: the short-circuit conjunction of `IsAction`,
`IsPoint` and `IsData`, threading the parser state. -/
def IsCommand (e : Expr) : Bool × Expr :=
  let r1 := IsAction e
  if r1.1 then
    let r2 := IsPoint r1.2
    if r2.1 then IsData r2.2 else r2
  else r1

/-- Embeds `IsAddCommand`: run `IsCommand` and keep its result only when the
recorded action is ADD; otherwise reset the cursor and fail. -/
def IsAddCommand (e : Expr) : Bool × Expr :=
  let r := IsCommand e
  if r.2.action = kwADD then r
  else (false, { r.2 with position := 0 })

/-- Embeds `IsKnnCommand`: run `IsCommand` and keep its result only when the
recorded action is KNN; otherwise reset the cursor and fail. -/
def IsKnnCommand (e : Expr) : Bool × Expr :=
  let r := IsCommand e
  if r.2.action = kwKNN then r
  else (false, { r.2 with position := 0 })

/-- Embeds `IsPartialCommand`: the short-circuit conjunction of `IsAction`
and `IsPoint`. -/
def IsPartialCommand (e : Expr) : Bool × Expr :=
  let r1 := IsAction e
  if r1.1 then IsPoint r1.2 else r1

/-- Embeds `IsDelCommand`: run `IsPartialCommand` and keep its result only
when the recorded action is DEL; otherwise reset the cursor and fail. -/
def IsDelCommand (e : Expr) : Bool × Expr :=
  let r := IsPartialCommand e
  if r.2.action = kwDEL then r
  else (false, { r.2 with position := 0 })

/-- Embeds `IsFullCommand`: the short-circuit disjunction of `IsAddCommand`
and `IsKnnCommand`, threading the parser state. -/
def IsFullCommand (e : Expr) : Bool × Expr :=
  let r := IsAddCommand e
  if r.1 then r else IsKnnCommand r.2

/-- Whitespace in the sense of `strings.TrimSpace` on the ASCII range: space,
tab, newline, vertical tab, form feed, carriage return. -/
def isSpaceChar (c : Char) : Bool :=
  c = ' ' || c = '\t' || c = '\n' || c = '\x0b' || c = '\x0c' || c = '\r'

/-- Embeds `strings.TrimSpace`: strip whitespace from both ends. -/
def trimSpace (s : List Char) : List Char :=
  ((s.dropWhile isSpaceChar).reverse.dropWhile isSpaceChar).reverse

/-- The body of `ParseKDtreeCommand` after trimming: start from the zero-value
`Expr` over the trimmed buffer and try, in order, a full command (ADD or KNN),
a delete command, and a bare END, threading the same parser object through the
short-circuit disjunction, then mark the result valid if any alternative
succeeded. -/
def parseBuffer (b : List Char) : Expr :=
  let e0 : Expr := ⟨b, 0, [], [], ⟨0⟩, false⟩
  let r1 := IsFullCommand e0
  let r2 := if r1.1 then r1 else IsDelCommand r1.2
  let r3 := if r2.1 then r2 else IsEndAction r2.2
  if r3.1 then { r3.2 with valid := true } else r3.2

/-- Embeds `ParseKDtreeCommand`: trim the line, then parse it. -/
def ParseKDtreeCommand (command : List Char) : Expr :=
  parseBuffer (trimSpace command)

/-- A stored record: a point and its payload. -/
structure Record where
  point : List Int
  data : Data
deriving DecidableEq

/-- The record collection of the shared store.  The kyroy/kdtree index that
holds it in the source is an external dependency; only the collection's
abstract contents are modelled. -/
abbrev Store := List Record

/-- Modelled from the spec: `Insert(point, payload)` of the external
kyroy/kdtree index adds a new record unconditionally, with no uniqueness
check. -/
def Insert (st : Store) (r : Record) : Store := st ++ [r]

/-- Modelled from the spec: `Delete(point)` of the external kyroy/kdtree
index removes every record whose point equals the argument exactly, and is a
no-op when none match. -/
def Remove (st : Store) (p : List Int) : Store :=
  st.filter (fun r => decide (r.point ≠ p))

/-- Squared Euclidean distance between coordinate lists.  The square root is
strictly monotone, so ordering by squared distance is ordering by Euclidean
distance. -/
def dist2 (q p : List Int) : Int :=
  ((q.zip p).map (fun ab => (ab.1 - ab.2) * (ab.1 - ab.2))).sum

/-- Insert a record into a list kept in ascending distance from `q`,
placing it after records at equal distance (a deterministic tie order). -/
def insertByDist (q : List Int) (r : Record) : List Record → List Record
  | [] => [r]
  | x :: xs =>
    if dist2 q r.point < dist2 q x.point then r :: x :: xs
    else x :: insertByDist q r xs

/-- Sort the store records in ascending distance from `q`. -/
def sortByDist (q : List Int) (st : Store) : List Record :=
  st.foldr (fun r acc => insertByDist q r acc) []

/-- Modelled from the spec: `KNearest(point, k)` of the external kyroy/kdtree
index returns up to k records ordered by ascending Euclidean distance to the
point, all of them when fewer than k exist, and an empty sequence for k at
most 0. -/
def KNearest (st : Store) (p : List Int) (k : Int) : List Record :=
  if k ≤ 0 then [] else (sortByDist p st).take k.toNat

/-- The protocol line terminator used by every response in the source. -/
def crlf : List Char := ['\r', '\n']

/-- The response of the daemon.go variant to a socket read error. -/
def readErrorMsg : List Char := ("READ ERROR").toList ++ crlf

/-- The response of the daemon.go variant to an invalid line. -/
def invalidMsg : List Char := ("INVALID COMMAND").toList ++ crlf

/-- The farewell response of the daemon.go variant to END. -/
def byeMsg : List Char := ("BYE!!!").toList ++ crlf

/-- Rendering of one integral coordinate, as Go's `%+v` prints an integral
float64 value. -/
def fmtInt (i : Int) : List Char := (toString i).toList

/-- Rendering of a coordinate slice, as Go's `%+v` prints it: the values
separated by spaces, between square brackets. -/
def fmtPoint (p : List Int) : List Char :=
  '[' :: (List.intercalate [' '] (p.map fmtInt) ++ [']'])

/-- The acknowledgment of an ADD dispatch: the echoed point and "added". -/
def addedMsg (p : List Int) : List Char := fmtPoint p ++ (" added").toList ++ crlf

/-- The acknowledgment of a DEL dispatch: the echoed point and "deleted". -/
def deletedMsg (p : List Int) : List Char := fmtPoint p ++ (" deleted").toList ++ crlf

/-- The response of a KNN dispatch: the result records rendered by their
points.  The exact byte format of Go's `%+v` on a slice of records is not
load-bearing for any claim and is modelled by this rendering. -/
def knnMsg (rst : List Record) : List Char :=
  '[' :: (List.intercalate [' '] (rst.map (fun r => fmtPoint r.point)) ++ [']']) ++ crlf

/-- One read outcome of the session loop: a line, or a socket read error. -/
inductive Input where
  | line (s : List Char)
  | readError
deriving DecidableEq

/-- What the session loop does after one iteration: keep reading, or leave
the loop (after which the connection is closed). -/
inductive Control where
  | continueLoop
  | closeConn
deriving DecidableEq

/-- The observable effect of one iteration of a session loop: the responses
written to the connection (in order, all written before any close), the store
contents afterwards, the loop control, and whether the whole process is still
alive afterwards. -/
structure StepResult where
  responses : List (List Char)
  store : Store
  control : Control
  processAlive : Bool
deriving DecidableEq

/-- One iteration of the `HandleRequest` loop of daemon.go: on a read error
respond READ ERROR and keep the session; on an invalid line respond INVALID
COMMAND and keep the session; on END respond BYE!!! and leave the loop (the
connection is closed after the loop, so the farewell is written before the
close); otherwise dispatch the command to the store and acknowledge.  The
mutex discipline of the dispatch is modelled separately by `dispatchTrace`. -/
def sessionStep (st : Store) (input : Input) : StepResult :=
  match input with
  | .readError => ⟨[readErrorMsg], st, .continueLoop, true⟩
  | .line s =>
    let parsed := ParseKDtreeCommand s
    if parsed.valid = false then ⟨[invalidMsg], st, .continueLoop, true⟩
    else if parsed.valid = true ∧ parsed.action = kwEND then ⟨[byeMsg], st, .closeConn, true⟩
    else if parsed.action = kwADD then
      ⟨[addedMsg parsed.point], Insert st ⟨parsed.point, parsed.data⟩, .continueLoop, true⟩
    else if parsed.action = kwDEL then
      ⟨[deletedMsg parsed.point], Remove st parsed.point, .continueLoop, true⟩
    else if parsed.action = kwKNN then
      ⟨[knnMsg (KNearest st parsed.point parsed.data.value)], st, .continueLoop, true⟩
    else ⟨[], st, .continueLoop, true⟩

/-- One iteration of the `HandleRequest` loop of the part_000 variant: on a
read error it calls `log.Fatal(err)`, which terminates the entire process
(the `return` after it is unreachable), so no session survives and the accept
loop dies with it; on an invalid line it leaves the loop silently and the
connection is closed; on END it leaves the loop without writing any farewell;
otherwise it dispatches to the shared tree with no locking (see
`dispatchTracePart000`) and acknowledges. -/
def sessionStepPart000 (st : Store) (input : Input) : StepResult :=
  match input with
  | .readError => ⟨[], st, .closeConn, false⟩
  | .line s =>
    let parsed := ParseKDtreeCommand s
    if parsed.valid = false then ⟨[], st, .closeConn, true⟩
    else if parsed.valid = true ∧ parsed.action = kwEND then ⟨[], st, .closeConn, true⟩
    else if parsed.action = kwADD then
      ⟨[addedMsg parsed.point], Insert st ⟨parsed.point, parsed.data⟩, .continueLoop, true⟩
    else if parsed.action = kwDEL then
      ⟨[deletedMsg parsed.point], Remove st parsed.point, .continueLoop, true⟩
    else if parsed.action = kwKNN then
      ⟨[knnMsg (KNearest st parsed.point parsed.data.value)], st, .continueLoop, true⟩
    else ⟨[], st, .continueLoop, true⟩

/-- The store-access events a dispatch performs, in order: mutex acquisition
and release, and the index operations. -/
inductive StoreEvent where
  | lockEv
  | unlockEv
  | insertEv (p : List Int) (d : Int)
  | removeEv (p : List Int)
  | knnEv (p : List Int) (k : Int)
deriving DecidableEq

/-- The store-access events of the dispatch switch in daemon.go's
`HandleRequest`: ADD and DEL wrap their mutation in `store.Lock()` and
`store.Unlock()`, but the KNN case calls `store.tree.KNN` with no lock at
all. -/
def dispatchTrace (parsed : Expr) : List StoreEvent :=
  if parsed.action = kwADD then
    [.lockEv, .insertEv parsed.point parsed.data.value, .unlockEv]
  else if parsed.action = kwDEL then
    [.lockEv, .removeEv parsed.point, .unlockEv]
  else if parsed.action = kwKNN then
    [.knnEv parsed.point parsed.data.value]
  else []

/-- The store-access events of the dispatch switch in the part_000 variant's
`HandleRequest`: the shared tree is used directly, with no mutex anywhere. -/
def dispatchTracePart000 (parsed : Expr) : List StoreEvent :=
  if parsed.action = kwADD then [.insertEv parsed.point parsed.data.value]
  else if parsed.action = kwDEL then [.removeEv parsed.point]
  else if parsed.action = kwKNN then [.knnEv parsed.point parsed.data.value]
  else []

/-- Written from the specification's words, for comparison with the code: the
first non-space position at or after a cursor. -/
def firstNonSpace (s : List Char) (i : Nat) : Nat :=
  i + ((s.drop i).takeWhile (fun c => decide (c = ' '))).length

/-- Written from the specification's words, for comparison with the code:
consume the literal point shape (open brace, digits, comma, space, digits,
close brace) at the front of the string and return the remainder. -/
def specPoint (s : List Char) : Option (List Char) :=
  match s with
  | '{' :: r =>
    let d1 := r.takeWhile Char.isDigit
    let r1 := r.dropWhile Char.isDigit
    if d1 = [] then none
    else
      match r1 with
      | ',' :: ' ' :: r2 =>
        let d2 := r2.takeWhile Char.isDigit
        let r3 := r2.dropWhile Char.isDigit
        if d2 = [] then none
        else
          match r3 with
          | '}' :: rest => some rest
          | _ => none
      | _ => none
  | _ => none

/-- A nonempty string of digits. -/
def specAllDigits (s : List Char) : Bool := !s.isEmpty && s.all Char.isDigit

/-- Written from the specification's words, for comparison with the code: a
trimmed line matches one of the four grammar shapes ADD point payload,
DEL point, KNN point payload, or END, with single literal spaces between the
tokens. -/
def specCanonical (s : List Char) : Bool :=
  decide (s = kwEND) ||
  (match s with
   | 'A' :: 'D' :: 'D' :: ' ' :: r =>
     match specPoint r with
     | some (' ' :: n) => specAllDigits n
     | _ => false
   | 'D' :: 'E' :: 'L' :: ' ' :: r => decide (specPoint r = some [])
   | 'K' :: 'N' :: 'N' :: ' ' :: r =>
     match specPoint r with
     | some (' ' :: n) => specAllDigits n
     | _ => false
   | _ => false)

/-- The canonical full-command line of the grammar: a keyword, a space, the
point token over digit groups `dx` and `dy`, a space and the payload digits
`dn`. -/
def fullLine (kw dx dy dn : List Char) : List Char :=
  kw ++ ' ' :: '{' :: (dx ++ ',' :: ' ' :: (dy ++ '}' :: ' ' :: dn))

/-- A delete-command line with arbitrary text `g` following the closing brace
of the point token. -/
def delLineG (dx dy g : List Char) : List Char :=
  kwDEL ++ ' ' :: '{' :: (dx ++ ',' :: ' ' :: (dy ++ '}' :: g))

/-- The canonical delete-command line of the grammar. -/
def delLine (dx dy : List Char) : List Char := delLineG dx dy []

/-- The skip loop stops at its very first iteration: the character with code
point 0 is not a space. -/
theorem skipLoop_eq (p n : Nat) : skipLoop p 0 n = p := by
  cases n with
  | zero => rfl
  | succ m =>
    simp only [skipLoop]
    rw [if_neg (by decide)]

/-- The source's whitespace skipping never moves the cursor. -/
theorem skipWhitespace_eq (e : Expr) : SkipWhitespace e = e := by
  cases e
  simp [SkipWhitespace, skipLoop_eq]

/-- Reduction of `Match` when the pattern occurs in the remaining buffer. -/
theorem match_eq_some (find : List Char → Option (List Char)) (e : Expr) (m : List Char)
    (h : find (Current e) = some m) :
    Match find e = ((m, true), { e with position := e.position + m.length }) := by
  simp [Match, skipWhitespace_eq, h]

/-- Reduction of `Match` when the pattern occurs nowhere in the remaining
buffer. -/
theorem match_eq_none (find : List Char → Option (List Char)) (e : Expr)
    (h : find (Current e) = none) :
    Match find e = (([], false), e) := by
  simp [Match, skipWhitespace_eq, h]

/-- Reduction of `IsAction` on success. -/
theorem isAction_some (e : Expr) (m : List Char) (h : findKeyword (Current e) = some m) :
    IsAction e = (true, { e with position := e.position + m.length, action := m }) := by
  simp [IsAction, match_eq_some _ _ _ h]

/-- Reduction of `IsAction` on failure. -/
theorem isAction_none (e : Expr) (h : findKeyword (Current e) = none) :
    IsAction e = (false, { e with position := 0 }) := by
  simp [IsAction, match_eq_none _ _ h]

/-- Reduction of `IsPoint` on success. -/
theorem isPoint_some (e : Expr) (m : List Char) (h : findPoint (Current e) = some m) :
    IsPoint e = (true, { e with position := e.position + m.length, point := MakePoint m }) := by
  simp [IsPoint, match_eq_some _ _ _ h]

/-- Reduction of `IsPoint` on failure. -/
theorem isPoint_none (e : Expr) (h : findPoint (Current e) = none) :
    IsPoint e = (false, { e with position := 0 }) := by
  simp [IsPoint, match_eq_none _ _ h]

/-- Reduction of `IsData` on success. -/
theorem isData_some (e : Expr) (m : List Char) (h : findDigits (Current e) = some m) :
    IsData e = (true, { e with position := e.position + m.length, data := ⟨Atoi m⟩ }) := by
  simp [IsData, match_eq_some _ _ _ h]

/-- Reduction of `IsData` on failure. -/
theorem isData_none (e : Expr) (h : findDigits (Current e) = none) :
    IsData e = (false, { e with position := 0 }) := by
  simp [IsData, match_eq_none _ _ h]

/-- A leftmost search succeeds at the first position where the pattern
matches. -/
theorem reFind_of_matchAt (f : List Char → Option (List Char)) (s m : List Char)
    (h : f s = some m) : reFind f s = some m := by
  cases s with
  | nil => simpa [reFind] using h
  | cons c cs => simp [reFind, h]

/-- A leftmost search slides past a position where the pattern does not
match. -/
theorem reFind_cons_of_none (f : List Char → Option (List Char)) (c : Char) (cs : List Char)
    (h : f (c :: cs) = none) : reFind f (c :: cs) = reFind f cs := by
  simp [reFind, h]

/-- A successful leftmost search gives a position where the pattern itself
matched. -/
theorem reFind_some_exists (f : List Char → Option (List Char)) (s m : List Char)
    (h : reFind f s = some m) : ∃ t, f t = some m := by
  induction s with
  | nil => exact ⟨[], by simpa [reFind] using h⟩
  | cons c cs ih =>
    rw [reFind] at h
    cases hc : f (c :: cs) with
    | some m' => rw [hc] at h; exact ⟨c :: cs, by rw [hc, ← h]⟩
    | none => rw [hc] at h; exact ih h

/-- Taking while a predicate holds passes over a block where it holds
everywhere. -/
theorem all_takeWhile_app {p : Char → Bool} {d : List Char} (hd : d.all p = true)
    (r : List Char) : (d ++ r).takeWhile p = d ++ r.takeWhile p := by
  induction d with
  | nil => simp
  | cons c cs ih =>
    simp only [List.all_cons, Bool.and_eq_true] at hd
    simp [List.takeWhile_cons_of_pos hd.1, ih hd.2]

/-- Dropping while a predicate holds consumes a block where it holds
everywhere. -/
theorem all_dropWhile_app {p : Char → Bool} {d : List Char} (hd : d.all p = true)
    (r : List Char) : (d ++ r).dropWhile p = r.dropWhile p := by
  induction d with
  | nil => simp
  | cons c cs ih =>
    simp only [List.all_cons, Bool.and_eq_true] at hd
    simp [List.dropWhile_cons_of_pos hd.1, ih hd.2]

/-- Taking while a predicate holds keeps a list where it holds everywhere. -/
theorem takeWhile_all {p : Char → Bool} {d : List Char} (hd : d.all p = true) :
    d.takeWhile p = d := by
  simpa using all_takeWhile_app hd []

/-- Dropping a left block of an append by its own length. -/
theorem drop_len_app (l r : List Char) : (l ++ r).drop l.length = r :=
  List.drop_left l r

/-- The run accumulator passes through a block of digits. -/
theorem runsAux_digits {d : List Char} (hd : d.all Char.isDigit = true)
    (cur r : List Char) : runsAux cur (d ++ r) = runsAux (d.reverse ++ cur) r := by
  induction d generalizing cur with
  | nil => simp
  | cons c cs ih =>
    simp only [List.all_cons, Bool.and_eq_true] at hd
    simp [runsAux, hd.1, ih hd.2, List.reverse_cons, List.append_assoc]

/-- The run accumulator skips a non-digit when no run is open. -/
theorem runsAux_nondigit {c : Char} (hc : c.isDigit = false) (cs : List Char) :
    runsAux [] (c :: cs) = runsAux [] cs := by
  simp [runsAux, hc]

/-- The run accumulator emits the open run at a non-digit. -/
theorem runsAux_break {cur : List Char} (hcur : cur ≠ []) {c : Char}
    (hc : c.isDigit = false) (cs : List Char) :
    runsAux cur (c :: cs) = cur.reverse :: runsAux [] cs := by
  simp [runsAux, hc, hcur]

/-- The run accumulator emits the open run at the end of the string. -/
theorem runsAux_nil {cur : List Char} (hcur : cur ≠ []) :
    runsAux cur [] = [cur.reverse] := by
  simp [runsAux, hcur]

/-- The digit runs of a point token are exactly its two digit groups. -/
theorem findAllDigitRuns_tok {d1 d2 : List Char}
    (h1 : d1.all Char.isDigit = true) (h1n : d1 ≠ [])
    (h2 : d2.all Char.isDigit = true) (h2n : d2 ≠ []) :
    findAllDigitRuns (pointTok d1 d2) = [d1, d2] := by
  have h1r : d1.reverse ≠ [] := by simpa using h1n
  have h2r : d2.reverse ≠ [] := by simpa using h2n
  unfold findAllDigitRuns pointTok
  rw [runsAux_nondigit (by decide)]
  rw [runsAux_digits h1]
  rw [List.append_nil]
  rw [runsAux_break h1r (by decide)]
  rw [runsAux_nondigit (by decide)]
  rw [runsAux_digits h2]
  rw [List.append_nil]
  rw [runsAux_break h2r (by decide)]
  simp [runsAux]

/-- `MakePoint` on a point token decodes its two digit groups. -/
theorem makePoint_tok {d1 d2 : List Char}
    (h1 : d1.all Char.isDigit = true) (h1n : d1 ≠ [])
    (h2 : d2.all Char.isDigit = true) (h2n : d2 ≠ []) :
    MakePoint (pointTok d1 d2) = [Atoi d1, Atoi d2] := by
  simp [MakePoint, findAllDigitRuns_tok h1 h1n h2 h2n]

/-- The point pattern matches at an opening brace followed by the two digit
groups, and the match is exactly the point token, whatever follows the
closing brace. -/
theorem matchPointAt_shape {d1 d2 : List Char} (tail : List Char)
    (h1 : d1.all Char.isDigit = true) (h1n : d1 ≠ [])
    (h2 : d2.all Char.isDigit = true) (h2n : d2 ≠ []) :
    matchPointAt ('{' :: (d1 ++ ',' :: ' ' :: (d2 ++ '}' :: tail))) = some (pointTok d1 d2) := by
  have ht1 : (d1 ++ ',' :: ' ' :: (d2 ++ '}' :: tail)).takeWhile Char.isDigit = d1 := by
    rw [all_takeWhile_app h1, List.takeWhile_cons_of_neg (by decide), List.append_nil]
  have hr1 : (d1 ++ ',' :: ' ' :: (d2 ++ '}' :: tail)).dropWhile Char.isDigit
      = ',' :: ' ' :: (d2 ++ '}' :: tail) := by
    rw [all_dropWhile_app h1, List.dropWhile_cons_of_neg (by decide)]
  have ht2 : (d2 ++ '}' :: tail).takeWhile Char.isDigit = d2 := by
    rw [all_takeWhile_app h2, List.takeWhile_cons_of_neg (by decide), List.append_nil]
  have hr2 : (d2 ++ '}' :: tail).dropWhile Char.isDigit = '}' :: tail := by
    rw [all_dropWhile_app h2, List.dropWhile_cons_of_neg (by decide)]
  simp [matchPointAt, ht1, hr1, ht2, hr2, h1n, h2n]

/-- The action alternation matches ADD at the front of any continuation. -/
theorem matchKeywordAt_ADD (g : List Char) : matchKeywordAt (kwADD ++ g) = some kwADD := rfl

/-- The action alternation matches DEL at the front of any continuation. -/
theorem matchKeywordAt_DEL (g : List Char) : matchKeywordAt (kwDEL ++ g) = some kwDEL := rfl

/-- The action alternation matches KNN at the front of any continuation. -/
theorem matchKeywordAt_KNN (g : List Char) : matchKeywordAt (kwKNN ++ g) = some kwKNN := rfl

/-- The action alternation matches END at the front of any continuation. -/
theorem matchKeywordAt_END (g : List Char) : matchKeywordAt (kwEND ++ g) = some kwEND := rfl

/-- The point pattern fails at any character other than an opening brace. -/
theorem matchPointAt_cons_ne {c : Char} (h : ¬ c = '{') (r : List Char) :
    matchPointAt (c :: r) = none := by
  simp [matchPointAt, h]

/-- The digit-run pattern fails at a non-digit character. -/
theorem matchDigitsAt_cons_neg {c : Char} (hc : c.isDigit = false) (r : List Char) :
    matchDigitsAt (c :: r) = none := by
  have h : (c :: r).takeWhile Char.isDigit = [] :=
    List.takeWhile_cons_of_neg (by simp [hc])
  simp [matchDigitsAt, h]

/-- The digit-run pattern matches a whole nonempty digit string. -/
theorem matchDigitsAt_all {d : List Char} (hd : d.all Char.isDigit = true) (hn : d ≠ []) :
    matchDigitsAt d = some d := by
  simp [matchDigitsAt, takeWhile_all hd, hn]

/-- The leftmost point match in the buffer remainder after a keyword: the
space is skipped and the point token matches at the brace. -/
theorem findPoint_rest {dx dy : List Char} (tail : List Char)
    (hdx : dx.all Char.isDigit = true) (hdxn : dx ≠ [])
    (hdy : dy.all Char.isDigit = true) (hdyn : dy ≠ []) :
    findPoint (' ' :: '{' :: (dx ++ ',' :: ' ' :: (dy ++ '}' :: tail))) = some (pointTok dx dy) := by
  unfold findPoint
  rw [reFind_cons_of_none _ _ _ (matchPointAt_cons_ne (by decide) _)]
  exact reFind_of_matchAt _ _ _ (matchPointAt_shape tail hdx hdxn hdy hdyn)

/-- The leftmost digit-run match in the buffer remainder after a point token
followed by a space: the payload digits. -/
theorem findDigits_close {dn : List Char} (hd : dn.all Char.isDigit = true) (hn : dn ≠ []) :
    findDigits ('}' :: ' ' :: dn) = some dn := by
  unfold findDigits
  rw [reFind_cons_of_none _ _ _ (matchDigitsAt_cons_neg (by decide) _)]
  rw [reFind_cons_of_none _ _ _ (matchDigitsAt_cons_neg (by decide) _)]
  exact reFind_of_matchAt _ _ _ (matchDigitsAt_all hd hn)

/-- `IsAction` at cursor 0 on a buffer that starts with a keyword. -/
theorem isAction_step (L kw : List Char) (a : List Char) (p0 : List Int) (d0 : Data) (v : Bool)
    (h : findKeyword L = some kw) :
    IsAction ⟨L, 0, a, p0, d0, v⟩ = (true, ⟨L, kw.length, kw, p0, d0, v⟩) := by
  simpa using isAction_some ⟨L, 0, a, p0, d0, v⟩ kw (by simpa [Current] using h)

/-- `IsAction` when the keyword pattern occurs nowhere after the cursor. -/
theorem isAction_stepF (L : List Char) (pos : Nat) (a : List Char) (p0 : List Int) (d0 : Data)
    (v : Bool) (h : findKeyword (L.drop pos) = none) :
    IsAction ⟨L, pos, a, p0, d0, v⟩ = (false, ⟨L, 0, a, p0, d0, v⟩) := by
  simpa using isAction_none ⟨L, pos, a, p0, d0, v⟩ (by simpa [Current] using h)

/-- `IsPoint` when the point pattern occurs in the remainder. -/
theorem isPoint_step (L : List Char) (pos : Nat) (tok : List Char) (a : List Char)
    (p0 : List Int) (d0 : Data) (v : Bool) (h : findPoint (L.drop pos) = some tok) :
    IsPoint ⟨L, pos, a, p0, d0, v⟩ = (true, ⟨L, pos + tok.length, a, MakePoint tok, d0, v⟩) := by
  simpa using isPoint_some ⟨L, pos, a, p0, d0, v⟩ tok (by simpa [Current] using h)

/-- `IsPoint` when the point pattern occurs nowhere in the remainder. -/
theorem isPoint_stepF (L : List Char) (pos : Nat) (a : List Char) (p0 : List Int) (d0 : Data)
    (v : Bool) (h : findPoint (L.drop pos) = none) :
    IsPoint ⟨L, pos, a, p0, d0, v⟩ = (false, ⟨L, 0, a, p0, d0, v⟩) := by
  simpa using isPoint_none ⟨L, pos, a, p0, d0, v⟩ (by simpa [Current] using h)

/-- `IsData` when a digit run occurs in the remainder. -/
theorem isData_step (L : List Char) (pos : Nat) (tok : List Char) (a : List Char)
    (p0 : List Int) (d0 : Data) (v : Bool) (h : findDigits (L.drop pos) = some tok) :
    IsData ⟨L, pos, a, p0, d0, v⟩ = (true, ⟨L, pos + tok.length, a, p0, ⟨Atoi tok⟩, v⟩) := by
  simpa using isData_some ⟨L, pos, a, p0, d0, v⟩ tok (by simpa [Current] using h)

/-- `IsData` when no digit occurs in the remainder. -/
theorem isData_stepF (L : List Char) (pos : Nat) (a : List Char) (p0 : List Int) (d0 : Data)
    (v : Bool) (h : findDigits (L.drop pos) = none) :
    IsData ⟨L, pos, a, p0, d0, v⟩ = (false, ⟨L, 0, a, p0, d0, v⟩) := by
  simpa using isData_none ⟨L, pos, a, p0, d0, v⟩ (by simpa [Current] using h)

/-- Dropping the keyword and the point token of a command line lands exactly
on the closing brace of the point. -/
theorem drop_fullLine (kw dx dy : List Char) (hk3 : kw.length = 3) (tail : List Char) :
    (kw ++ ' ' :: '{' :: (dx ++ ',' :: ' ' :: (dy ++ '}' :: tail))).drop
      (3 + (pointTok dx dy).length) = '}' :: tail := by
  have hsplit : kw ++ ' ' :: '{' :: (dx ++ ',' :: ' ' :: (dy ++ '}' :: tail))
      = (kw ++ ' ' :: '{' :: (dx ++ ',' :: ' ' :: dy)) ++ '}' :: tail := by
    simp [List.append_assoc]
  have hlen : (kw ++ ' ' :: '{' :: (dx ++ ',' :: ' ' :: dy)).length
      = 3 + (pointTok dx dy).length := by
    simp only [List.length_append, List.length_cons, List.length_nil, pointTok, hk3]
    omega
  rw [hsplit]
  exact List.drop_left' hlen

/-- A character cannot be both a digit and trim whitespace. -/
theorem digit_not_space {c : Char} (h : c.isDigit = true) : isSpaceChar c = false := by
  by_contra hne
  have ht : isSpaceChar c = true := by
    revert hne
    cases isSpaceChar c <;> simp
  have hd : ((((c = ' ' ∨ c = '\t') ∨ c = '\n') ∨ c = '\x0b') ∨ c = '\x0c') ∨ c = '\r' := by
    simpa [isSpaceChar] using ht
  rcases hd with ((((rfl | rfl) | rfl) | rfl) | rfl) | rfl <;> exact absurd h (by decide)

/-- Every element of a list satisfying a Boolean `all` satisfies the
predicate; in particular the last one does. -/
theorem all_getLast? {p : Char → Bool} {l : List Char} (h : l.all p = true) {c : Char}
    (hc : l.getLast? = some c) : p c = true := by
  rcases List.getLast?_eq_some_iff.mp hc with ⟨ys, rfl⟩
  have : c ∈ ys ++ [c] := by simp
  exact List.all_eq_true.mp h c this

/-- Trimming is the identity on strings whose first and last characters are
not whitespace. -/
theorem trimSpace_eq_self (s : List Char)
    (h1 : ∀ c, s.head? = some c → isSpaceChar c = false)
    (h2 : ∀ c, s.getLast? = some c → isSpaceChar c = false) :
    trimSpace s = s := by
  unfold trimSpace
  have hd : s.dropWhile isSpaceChar = s := by
    cases s with
    | nil => rfl
    | cons c cs => rw [List.dropWhile_cons_of_neg (by simp [h1 c rfl])]
  rw [hd]
  have hr : s.reverse.dropWhile isSpaceChar = s.reverse := by
    cases hrev : s.reverse with
    | nil => rfl
    | cons c cs =>
      have hlast : s.getLast? = some c := by
        rw [← List.head?_reverse, hrev]
        rfl
      rw [List.dropWhile_cons_of_neg (by simp [h2 c hlast])]
  rw [hr, List.reverse_reverse]

/-- Trimming is the identity on a canonical full-command line. -/
theorem trim_fullLine {kw dx dy dn : List Char} (hkw : kw = kwADD ∨ kw = kwKNN)
    (hdn : dn.all Char.isDigit = true) (hdnn : dn ≠ []) :
    trimSpace (fullLine kw dx dy dn) = fullLine kw dx dy dn := by
  apply trimSpace_eq_self
  · intro c hc
    rcases hkw with rfl | rfl <;>
      · simp only [fullLine, kwADD, kwKNN, List.cons_append, List.head?_cons,
          Option.some.injEq] at hc
        subst hc
        decide
  · intro c hc
    have hEq : fullLine kw dx dy dn
        = (kw ++ ' ' :: '{' :: (dx ++ ',' :: ' ' :: (dy ++ ['}', ' ']))) ++ dn := by
      simp [fullLine, List.append_assoc]
    rw [hEq, List.getLast?_append] at hc
    cases hl : dn.getLast? with
    | none => exact absurd (List.getLast?_eq_none_iff.mp hl) hdnn
    | some c' =>
      rw [hl] at hc
      simp only [Option.or_some, Option.some.injEq] at hc
      subst hc
      exact digit_not_space (all_getLast? hdn hl)

/-- `IsCommand` accepts a canonical full-command line from cursor 0, whatever
the other parser fields hold, recording the keyword, the decoded point and
the decoded payload. -/
theorem isCommand_fullLine (kw dx dy dn : List Char) (a : List Char) (p0 : List Int)
    (d0 : Data) (v : Bool)
    (hk : matchKeywordAt (fullLine kw dx dy dn) = some kw) (hk3 : kw.length = 3)
    (hdx : dx.all Char.isDigit = true) (hdxn : dx ≠ [])
    (hdy : dy.all Char.isDigit = true) (hdyn : dy ≠ [])
    (hdn : dn.all Char.isDigit = true) (hdnn : dn ≠ []) :
    IsCommand ⟨fullLine kw dx dy dn, 0, a, p0, d0, v⟩
      = (true, ⟨fullLine kw dx dy dn, 3 + (pointTok dx dy).length + dn.length, kw,
          [Atoi dx, Atoi dy], ⟨Atoi dn⟩, v⟩) := by
  have h1 : findKeyword (fullLine kw dx dy dn) = some kw := reFind_of_matchAt _ _ _ hk
  have h2 : findPoint ((fullLine kw dx dy dn).drop 3) = some (pointTok dx dy) := by
    show findPoint ((kw ++ ' ' :: '{' :: (dx ++ ',' :: ' ' :: (dy ++ '}' :: ' ' :: dn))).drop 3)
        = some (pointTok dx dy)
    rw [List.drop_left' hk3]
    exact findPoint_rest (' ' :: dn) hdx hdxn hdy hdyn
  have h3 : findDigits ((fullLine kw dx dy dn).drop (3 + (pointTok dx dy).length)) = some dn := by
    show findDigits ((kw ++ ' ' :: '{' :: (dx ++ ',' :: ' ' :: (dy ++ '}' :: ' ' :: dn))).drop
        (3 + (pointTok dx dy).length)) = some dn
    rw [drop_fullLine kw dx dy hk3 (' ' :: dn)]
    exact findDigits_close hdn hdnn
  unfold IsCommand
  rw [isAction_step _ _ _ _ _ _ h1]
  simp only [reduceIte, Bool.false_eq_true, Bool.true_eq_false, if_false, hk3]
  rw [isPoint_step _ _ _ _ _ _ _ h2]
  simp only [reduceIte, Bool.false_eq_true, Bool.true_eq_false, if_false]
  rw [makePoint_tok hdx hdxn hdy hdyn]
  rw [isData_step _ _ _ _ _ _ _ h3]

/-- The whole parse of a canonical ADD or KNN line: valid, with the keyword,
the decoded point and the decoded payload. -/
theorem parse_fullLine (kw dx dy dn : List Char) (hkw : kw = kwADD ∨ kw = kwKNN)
    (hdx : dx.all Char.isDigit = true) (hdxn : dx ≠ [])
    (hdy : dy.all Char.isDigit = true) (hdyn : dy ≠ [])
    (hdn : dn.all Char.isDigit = true) (hdnn : dn ≠ []) :
    ParseKDtreeCommand (fullLine kw dx dy dn)
      = ⟨fullLine kw dx dy dn, 3 + (pointTok dx dy).length + dn.length, kw,
          [Atoi dx, Atoi dy], ⟨Atoi dn⟩, true⟩ := by
  have hk3 : kw.length = 3 := by rcases hkw with rfl | rfl <;> rfl
  have hk : matchKeywordAt (fullLine kw dx dy dn) = some kw := by
    rcases hkw with rfl | rfl
    · exact matchKeywordAt_ADD _
    · exact matchKeywordAt_KNN _
  have hC := fun (a : List Char) (p0 : List Int) (d0 : Data) (v : Bool) =>
    isCommand_fullLine kw dx dy dn a p0 d0 v hk hk3 hdx hdxn hdy hdyn hdn hdnn
  rw [ParseKDtreeCommand, trim_fullLine hkw hdn hdnn]
  unfold parseBuffer IsFullCommand IsAddCommand
  dsimp only
  rw [hC [] [] ⟨0⟩ false]
  rcases hkw with rfl | rfl
  · simp only [reduceIte, Bool.false_eq_true, Bool.true_eq_false, if_false]
  · rw [if_neg (show ¬(kwKNN = kwADD) by decide)]
    simp only [reduceIte, Bool.false_eq_true, Bool.true_eq_false, if_false]
    unfold IsKnnCommand
    dsimp only
    rw [hC kwKNN [Atoi dx, Atoi dy] ⟨Atoi dn⟩ false]
    dsimp only
    rw [if_pos (rfl : kwKNN = kwKNN)]
    simp

/-- Splitting a dropWhile over an append. -/
theorem dropWhile_app (p : Char → Bool) (l r : List Char) :
    (l ++ r).dropWhile p
      = if l.dropWhile p = [] then r.dropWhile p else l.dropWhile p ++ r := by
  induction l with
  | nil => simp
  | cons c cs ih =>
    by_cases hc : p c
    · simp [List.dropWhile_cons_of_pos hc, ih]
    · simp [List.dropWhile_cons_of_neg hc]

/-- A delete line with trailing text is the canonical delete line with the
text appended. -/
theorem delLineG_eq (dx dy g : List Char) : delLine dx dy ++ g = delLineG dx dy g := by
  simp [delLine, delLineG, List.append_assoc]

/-- Trimming a delete line with trailing text strips trailing whitespace from
the trailing text only. -/
theorem trim_delLineG (dx dy g : List Char) :
    trimSpace (delLineG dx dy g)
      = delLineG dx dy ((g.reverse.dropWhile isSpaceChar).reverse) := by
  unfold trimSpace
  have hfront : (delLineG dx dy g).dropWhile isSpaceChar = delLineG dx dy g := by
    have hcons : delLineG dx dy g
        = 'D' :: ('E' :: 'L' :: ' ' :: '{' :: (dx ++ ',' :: ' ' :: (dy ++ '}' :: g))) := rfl
    rw [hcons, List.dropWhile_cons_of_neg (by decide)]
  rw [hfront, ← delLineG_eq, List.reverse_append, dropWhile_app]
  by_cases hg : g.reverse.dropWhile isSpaceChar = []
  · rw [if_pos hg]
    have hrev : (delLine dx dy).reverse.dropWhile isSpaceChar = (delLine dx dy).reverse := by
      cases hrv : (delLine dx dy).reverse with
      | nil => rfl
      | cons c cs =>
        have hl1 : (delLine dx dy).getLast? = some c := by
          rw [← List.head?_reverse, hrv]
          rfl
        have hEq : delLine dx dy
            = (kwDEL ++ ' ' :: '{' :: (dx ++ ',' :: ' ' :: dy)) ++ ['}'] := by
          simp [delLine, delLineG, List.append_assoc]
        have hl2 : (delLine dx dy).getLast? = some '}' := by
          rw [hEq]
          exact List.getLast?_concat _
        rw [hl1] at hl2
        have hc : c = '}' := by simpa using hl2
        subst hc
        rw [List.dropWhile_cons_of_neg (by decide)]
    rw [hrev, List.reverse_reverse, hg]
    rfl
  · rw [if_neg hg, List.reverse_append, List.reverse_reverse]
    exact delLineG_eq dx dy _

/-- The parse of a delete line with arbitrary trailing text after the closing
brace: valid, action DEL, and the point decoded from the two digit groups. -/
theorem parseBuffer_delG (dx dy g : List Char)
    (hdx : dx.all Char.isDigit = true) (hdxn : dx ≠ [])
    (hdy : dy.all Char.isDigit = true) (hdyn : dy ≠ []) :
    ∃ dat pos, parseBuffer (delLineG dx dy g)
      = ⟨delLineG dx dy g, pos, kwDEL, [Atoi dx, Atoi dy], dat, true⟩ := by
  have hk3 : kwDEL.length = 3 := rfl
  have h1 : findKeyword (delLineG dx dy g) = some kwDEL :=
    reFind_of_matchAt _ _ _ (matchKeywordAt_DEL _)
  have h2 : findPoint ((delLineG dx dy g).drop 3) = some (pointTok dx dy) := by
    show findPoint ((kwDEL ++ ' ' :: '{' :: (dx ++ ',' :: ' ' :: (dy ++ '}' :: g))).drop 3)
        = some (pointTok dx dy)
    rw [List.drop_left' hk3]
    exact findPoint_rest g hdx hdxn hdy hdyn
  have h3eq : (delLineG dx dy g).drop (3 + (pointTok dx dy).length) = '}' :: g := by
    show (kwDEL ++ ' ' :: '{' :: (dx ++ ',' :: ' ' :: (dy ++ '}' :: g))).drop
        (3 + (pointTok dx dy).length) = '}' :: g
    exact drop_fullLine kwDEL dx dy hk3 g
  have hskip : findDigits ('}' :: g) = findDigits g :=
    reFind_cons_of_none _ _ _ (matchDigitsAt_cons_neg (by decide) g)
  cases hfd : findDigits g with
  | some m =>
    have hIC : ∀ (a : List Char) (p0 : List Int) (d0 : Data) (v : Bool),
        IsCommand ⟨delLineG dx dy g, 0, a, p0, d0, v⟩
          = (true, ⟨delLineG dx dy g, 3 + (pointTok dx dy).length + m.length, kwDEL,
              [Atoi dx, Atoi dy], ⟨Atoi m⟩, v⟩) := by
      intro a p0 d0 v
      unfold IsCommand
      rw [isAction_step _ _ _ _ _ _ h1]
      simp only [reduceIte, Bool.false_eq_true, Bool.true_eq_false, if_false, hk3]
      rw [isPoint_step _ _ _ _ _ _ _ h2]
      simp only [reduceIte, Bool.false_eq_true, Bool.true_eq_false, if_false]
      rw [makePoint_tok hdx hdxn hdy hdyn]
      rw [isData_step _ _ _ _ _ _ _ (by rw [h3eq, hskip]; exact hfd)]
    refine ⟨⟨Atoi m⟩, 3 + (pointTok dx dy).length, ?_⟩
    unfold parseBuffer IsFullCommand IsAddCommand
    dsimp only
    rw [hIC [] [] ⟨0⟩ false]
    rw [if_neg (show ¬(kwDEL = kwADD) by decide)]
    simp only [reduceIte, Bool.false_eq_true, Bool.true_eq_false, if_false]
    unfold IsKnnCommand
    dsimp only
    rw [hIC kwDEL [Atoi dx, Atoi dy] ⟨Atoi m⟩ false]
    rw [if_neg (show ¬(kwDEL = kwKNN) by decide)]
    simp only [reduceIte, Bool.false_eq_true, Bool.true_eq_false, if_false]
    unfold IsDelCommand IsPartialCommand
    dsimp only
    rw [isAction_step _ _ _ _ _ _ h1]
    simp only [reduceIte, Bool.false_eq_true, Bool.true_eq_false, if_false, hk3]
    rw [isPoint_step _ _ _ _ _ _ _ h2]
    rw [makePoint_tok hdx hdxn hdy hdyn]
    dsimp only
    rw [if_pos (rfl : kwDEL = kwDEL)]
    simp
  | none =>
    have hIC : ∀ (a : List Char) (p0 : List Int) (d0 : Data) (v : Bool),
        IsCommand ⟨delLineG dx dy g, 0, a, p0, d0, v⟩
          = (false, ⟨delLineG dx dy g, 0, kwDEL, [Atoi dx, Atoi dy], d0, v⟩) := by
      intro a p0 d0 v
      unfold IsCommand
      rw [isAction_step _ _ _ _ _ _ h1]
      simp only [reduceIte, Bool.false_eq_true, Bool.true_eq_false, if_false, hk3]
      rw [isPoint_step _ _ _ _ _ _ _ h2]
      simp only [reduceIte, Bool.false_eq_true, Bool.true_eq_false, if_false]
      rw [makePoint_tok hdx hdxn hdy hdyn]
      rw [isData_stepF _ _ _ _ _ _ (by rw [h3eq, hskip]; exact hfd)]
    refine ⟨⟨0⟩, 3 + (pointTok dx dy).length, ?_⟩
    unfold parseBuffer IsFullCommand IsAddCommand
    dsimp only
    rw [hIC [] [] ⟨0⟩ false]
    rw [if_neg (show ¬(kwDEL = kwADD) by decide)]
    simp only [reduceIte, Bool.false_eq_true, Bool.true_eq_false, if_false]
    unfold IsKnnCommand
    dsimp only
    rw [hIC kwDEL [Atoi dx, Atoi dy] ⟨0⟩ false]
    rw [if_neg (show ¬(kwDEL = kwKNN) by decide)]
    simp only [reduceIte, Bool.false_eq_true, Bool.true_eq_false, if_false]
    unfold IsDelCommand IsPartialCommand
    dsimp only
    rw [isAction_step _ _ _ _ _ _ h1]
    simp only [reduceIte, Bool.false_eq_true, Bool.true_eq_false, if_false, hk3]
    rw [isPoint_step _ _ _ _ _ _ _ h2]
    rw [makePoint_tok hdx hdxn hdy hdyn]
    dsimp only
    rw [if_pos (rfl : kwDEL = kwDEL)]
    simp

/-- A buffer in which no keyword occurs anywhere fails every grammar
alternative, so the parse is invalid. -/
theorem parseBuffer_no_keyword (b : List Char) (h : findKeyword b = none) :
    (parseBuffer b).valid = false := by
  have hA : ∀ (a : List Char) (p0 : List Int) (d0 : Data) (v : Bool),
      IsAction ⟨b, 0, a, p0, d0, v⟩ = (false, ⟨b, 0, a, p0, d0, v⟩) := fun a p0 d0 v =>
    isAction_stepF b 0 a p0 d0 v (by rw [List.drop_zero]; exact h)
  have hIC : ∀ (a : List Char) (p0 : List Int) (d0 : Data) (v : Bool),
      IsCommand ⟨b, 0, a, p0, d0, v⟩ = (false, ⟨b, 0, a, p0, d0, v⟩) := by
    intro a p0 d0 v
    unfold IsCommand
    rw [hA a p0 d0 v]
    simp only [reduceIte, Bool.false_eq_true, Bool.true_eq_false, if_false]
  have hIP : ∀ (a : List Char) (p0 : List Int) (d0 : Data) (v : Bool),
      IsPartialCommand ⟨b, 0, a, p0, d0, v⟩ = (false, ⟨b, 0, a, p0, d0, v⟩) := by
    intro a p0 d0 v
    unfold IsPartialCommand
    rw [hA a p0 d0 v]
    simp only [reduceIte, Bool.false_eq_true, Bool.true_eq_false, if_false]
  unfold parseBuffer IsFullCommand IsAddCommand
  dsimp only
  rw [hIC [] [] ⟨0⟩ false]
  rw [if_neg (show ¬(([] : List Char) = kwADD) by decide)]
  simp only [reduceIte, Bool.false_eq_true, Bool.true_eq_false, if_false]
  unfold IsKnnCommand
  dsimp only
  rw [hIC [] [] ⟨0⟩ false]
  rw [if_neg (show ¬(([] : List Char) = kwKNN) by decide)]
  simp only [reduceIte, Bool.false_eq_true, Bool.true_eq_false, if_false]
  unfold IsDelCommand
  dsimp only
  rw [hIP [] [] ⟨0⟩ false]
  rw [if_neg (show ¬(([] : List Char) = kwDEL) by decide)]
  simp only [reduceIte, Bool.false_eq_true, Bool.true_eq_false, if_false]
  unfold IsEndAction
  dsimp only
  rw [hA [] [] ⟨0⟩ false]
  dsimp only
  rw [if_neg (show ¬(([] : List Char) = kwEND) by decide)]
  simp

/-- The session step of daemon.go on an invalid line: respond and keep the
session, with the store untouched. -/
theorem sessionStep_invalid (st : Store) (s : List Char)
    (h : (ParseKDtreeCommand s).valid = false) :
    sessionStep st (.line s) = ⟨[invalidMsg], st, .continueLoop, true⟩ := by
  unfold sessionStep
  dsimp only
  rw [h, if_pos rfl]

/-- The session step of daemon.go on a valid END line: the farewell response,
then the loop is left and the connection closed, with the store untouched. -/
theorem sessionStep_end (st : Store) (s : List Char)
    (hv : (ParseKDtreeCommand s).valid = true)
    (ha : (ParseKDtreeCommand s).action = kwEND) :
    sessionStep st (.line s) = ⟨[byeMsg], st, .closeConn, true⟩ := by
  unfold sessionStep
  dsimp only
  rw [hv, ha]
  rw [if_neg (by decide)]
  rw [if_pos ⟨rfl, rfl⟩]

/-- The session step of daemon.go on a valid DEL line: the deleted
acknowledgment and the removal of the parsed point from the store. -/
theorem sessionStep_del (st : Store) (s : List Char)
    (hv : (ParseKDtreeCommand s).valid = true)
    (ha : (ParseKDtreeCommand s).action = kwDEL) :
    sessionStep st (.line s)
      = ⟨[deletedMsg (ParseKDtreeCommand s).point],
          Remove st (ParseKDtreeCommand s).point, .continueLoop, true⟩ := by
  unfold sessionStep
  dsimp only
  rw [hv, ha]
  rw [if_neg (by decide)]
  rw [if_neg (by decide)]
  rw [if_neg (show ¬(kwDEL = kwADD) by decide)]
  rw [if_pos (rfl : kwDEL = kwDEL)]

/-- `Atoi` on an in-range digit string is the value of its digits. -/
theorem Atoi_of_digits {d : List Char} (hall : d.all Char.isDigit = true) (hne : d ≠ [])
    (hv : digitsVal d < 2 ^ 63) : Atoi d = (digitsVal d : Int) := by
  unfold Atoi
  rw [if_pos ⟨hne, hall⟩]
  congr 1
  omega

/-- Membership in an ordered insertion. -/
theorem mem_insertByDist (q : List Int) (r x : Record) (l : List Record) :
    x ∈ insertByDist q r l ↔ x = r ∨ x ∈ l := by
  induction l with
  | nil => simp [insertByDist]
  | cons y ys ih =>
    unfold insertByDist
    by_cases hc : dist2 q r.point < dist2 q y.point
    · rw [if_pos hc]
      simp
    · rw [if_neg hc]
      simp [ih]
      tauto

/-- Ordered insertion permutes a cons. -/
theorem perm_insertByDist (q : List Int) (r : Record) (l : List Record) :
    (insertByDist q r l).Perm (r :: l) := by
  induction l with
  | nil => exact List.Perm.refl _
  | cons y ys ih =>
    unfold insertByDist
    by_cases hc : dist2 q r.point < dist2 q y.point
    · rw [if_pos hc]
    · rw [if_neg hc]
      exact (ih.cons y).trans (List.Perm.swap r y ys)

/-- The distance sort of the store is a permutation of it. -/
theorem perm_sortByDist (q : List Int) (st : Store) : (sortByDist q st).Perm st := by
  induction st with
  | nil => exact List.Perm.refl _
  | cons r rs ih =>
    have : sortByDist q (r :: rs) = insertByDist q r (sortByDist q rs) := rfl
    rw [this]
    exact (perm_insertByDist q r _).trans (ih.cons r)

/-- Ordered insertion preserves the ascending-distance invariant. -/
theorem pairwise_insertByDist (q : List Int) (r : Record) (l : List Record)
    (h : l.Pairwise (fun a b => dist2 q a.point ≤ dist2 q b.point)) :
    (insertByDist q r l).Pairwise (fun a b => dist2 q a.point ≤ dist2 q b.point) := by
  induction l with
  | nil => simp [insertByDist]
  | cons y ys ih =>
    rw [List.pairwise_cons] at h
    obtain ⟨hy, hys⟩ := h
    unfold insertByDist
    by_cases hc : dist2 q r.point < dist2 q y.point
    · rw [if_pos hc, List.pairwise_cons]
      refine ⟨?_, List.pairwise_cons.mpr ⟨hy, hys⟩⟩
      intro z hz
      rcases List.mem_cons.mp hz with rfl | hz'
      · exact le_of_lt hc
      · exact (le_of_lt hc).trans (hy z hz')
    · rw [if_neg hc, List.pairwise_cons]
      refine ⟨?_, ih hys⟩
      intro z hz
      rcases (mem_insertByDist q r z ys).mp hz with rfl | hz'
      · exact le_of_not_lt hc
      · exact hy z hz'

/-- The distance sort is sorted in ascending distance. -/
theorem pairwise_sortByDist (q : List Int) (st : Store) :
    (sortByDist q st).Pairwise (fun a b => dist2 q a.point ≤ dist2 q b.point) := by
  induction st with
  | nil => simp [sortByDist]
  | cons r rs ih => exact pairwise_insertByDist q r _ ih

/-- The distance sort preserves length. -/
theorem length_sortByDist (q : List Int) (st : Store) :
    (sortByDist q st).length = st.length :=
  (perm_sortByDist q st).length_eq

/-- Removing a point no record carries is a no-op. -/
theorem remove_no_match (st : Store) (p : List Int) (h : ∀ r ∈ st, r.point ≠ p) :
    Remove st p = st := by
  unfold Remove
  apply List.filter_eq_self.mpr
  intro a ha
  simpa using h a ha

/-- Removal is idempotent on the store. -/
theorem remove_idem (st : Store) (p : List Int) :
    Remove (Remove st p) p = Remove st p := by
  unfold Remove
  induction st with
  | nil => rfl
  | cons r rs ih =>
    by_cases h : r.point = p
    · simp [List.filter_cons, h, ih]
    · simp [List.filter_cons, h, ih]

/-- Every character a takeWhile keeps satisfies the predicate. -/
theorem all_takeWhile (p : Char → Bool) (l : List Char) : (l.takeWhile p).all p = true := by
  induction l with
  | nil => rfl
  | cons c cs ih =>
    by_cases hc : p c
    · simp [List.takeWhile_cons_of_pos hc, hc, ih]
    · simp [List.takeWhile_cons_of_neg hc]

/-- Inversion of a point-pattern match: the matched text is a point token
over two nonempty digit groups. -/
theorem matchPointAt_some {s m : List Char} (h : matchPointAt s = some m) :
    ∃ d1 d2, m = pointTok d1 d2 ∧ d1 ≠ [] ∧ d2 ≠ []
      ∧ d1.all Char.isDigit = true ∧ d2.all Char.isDigit = true := by
  cases s with
  | nil => simp [matchPointAt] at h
  | cons c rest =>
    simp only [matchPointAt] at h
    split at h
    · split at h
      · exact absurd h (by simp)
      · split at h
        · split at h
          · exact absurd h (by simp)
          · split at h
            · refine ⟨_, _, (Option.some.inj h).symm, by assumption, by assumption,
                all_takeWhile _ _, all_takeWhile _ _⟩
            · exact absurd h (by simp)
        · exact absurd h (by simp)
    · exact absurd h (by simp)

/-- Inversion of a successful point search: the match is a point token over
two nonempty digit groups. -/
theorem findPoint_some {s m : List Char} (h : findPoint s = some m) :
    ∃ d1 d2, m = pointTok d1 d2 ∧ d1 ≠ [] ∧ d2 ≠ []
      ∧ d1.all Char.isDigit = true ∧ d2.all Char.isDigit = true := by
  obtain ⟨t, ht⟩ := reFind_some_exists matchPointAt s m h
  exact matchPointAt_some ht

/-- The session step of daemon.go on the boundary line KNN at the origin with
k = 0: the rendered empty result, whatever the store holds. -/
theorem sessionStep_knn_zero (st : Store) :
    sessionStep st (.line (("KNN {0, 0} 0").toList))
      = ⟨[knnMsg []], st, .continueLoop, true⟩ := by
  unfold sessionStep
  dsimp only
  rw [show (ParseKDtreeCommand (("KNN {0, 0} 0").toList)).valid = true from by decide]
  rw [show (ParseKDtreeCommand (("KNN {0, 0} 0").toList)).action = kwKNN from by decide]
  rw [show (ParseKDtreeCommand (("KNN {0, 0} 0").toList)).point = [0, 0] from by decide]
  rw [show (ParseKDtreeCommand (("KNN {0, 0} 0").toList)).data = ⟨0⟩ from by decide]
  rw [if_neg (by decide)]
  rw [if_neg (by decide)]
  rw [if_neg (show ¬(kwKNN = kwADD) by decide)]
  rw [if_neg (show ¬(kwKNN = kwDEL) by decide)]
  rw [if_pos (rfl : kwKNN = kwKNN)]
  dsimp only
  rw [show KNearest st [0, 0] (0 : Int) = [] from by unfold KNearest; rw [if_pos le_rfl]]

/-- Claim C1 (amended).  The original claim — every string that matches none
of the four grammar shapes parses as Invalid — is refuted by
`C1_counterexample`: the matcher searches anywhere in the buffer, so a line
such as XEND is accepted as END.  What does hold: a string whose trimmed form
contains no occurrence of any keyword parses as Invalid, and the daemon.go
session step leaves the store untouched on every Invalid line. -/
theorem C1_amended_invalid_no_keyword (s : List Char) (st : Store) :
    (findKeyword (trimSpace s) = none → (ParseKDtreeCommand s).valid = false)
    ∧ ((ParseKDtreeCommand s).valid = false →
        sessionStep st (.line s) = ⟨[invalidMsg], st, .continueLoop, true⟩) :=
  ⟨fun h => parseBuffer_no_keyword _ h, fun h => sessionStep_invalid st s h⟩

/-- Claim C1, counterexample: the line XEND matches none of the four grammar
shapes of the spec, yet `ParseKDtreeCommand` marks it a valid END command. -/
theorem C1_counterexample :
    specCanonical (("XEND").toList) = false
    ∧ (ParseKDtreeCommand (("XEND").toList)).valid = true
    ∧ (ParseKDtreeCommand (("XEND").toList)).action = kwEND := by
  decide

/-- Claim C1, witness: a keyword-free line parses Invalid and the store is
untouched. -/
theorem C1_witness :
    (ParseKDtreeCommand (("hello").toList)).valid = false
    ∧ sessionStep [] (.line (("hello").toList)) = ⟨[invalidMsg], [], .continueLoop, true⟩ := by
  have h := C1_amended_invalid_no_keyword (("hello").toList) []
  exact ⟨h.1 (by decide), h.2 (h.1 (by decide))⟩

/-- Claim C2, code evaluated at the failing input.  On the buffer of a space
followed by ADD with the cursor at 0, the first non-space character is at
position 1 and the keyword pattern matches there, ending at position 4 — yet
`Match` reports success with the final cursor at 3: `SkipWhitespace` does not
move over the leading space (it compares the loop index, not the character,
against a space) and the cursor advances only by the match length, not past
the occurrence. -/
theorem C2_match_unanchored :
    SkipWhitespace ⟨(" ADD").toList, 0, [], [], ⟨0⟩, false⟩
      = ⟨(" ADD").toList, 0, [], [], ⟨0⟩, false⟩
    ∧ Match findKeyword ⟨(" ADD").toList, 0, [], [], ⟨0⟩, false⟩
      = ((kwADD, true), ⟨(" ADD").toList, 3, [], [], ⟨0⟩, false⟩)
    ∧ firstNonSpace ((" ADD").toList) 0 = 1
    ∧ matchKeywordAt (((" ADD").toList).drop 1) = some kwADD
    ∧ 1 + kwADD.length ≠ 3 := by
  decide

/-- Claim C3, code evaluated at the failing input.  On a socket read error
the part_000 variant of `HandleRequest` calls `log.Fatal`, which terminates
the whole process — the accept loop dies with it — while the daemon.go
variant responds READ ERROR and keeps the session (and the process) alive. -/
theorem C3_read_error_fatal :
    sessionStepPart000 [] .readError = ⟨[], [], .closeConn, false⟩
    ∧ (sessionStepPart000 [] .readError).processAlive = false
    ∧ sessionStep [] .readError = ⟨[readErrorMsg], [], .continueLoop, true⟩ := by
  decide

/-- Claim C4, code evaluated at the failing input.  The KNN dispatch of
daemon.go reads the shared tree with no lock event at all, while its ADD
dispatch is wrapped in Lock and Unlock; the part_000 variant mutates the
shared tree with no lock even for ADD. -/
theorem C4_knn_unlocked :
    dispatchTrace (ParseKDtreeCommand (("KNN {1, 1} 1").toList)) = [.knnEv [1, 1] 1]
    ∧ StoreEvent.lockEv ∉ dispatchTrace (ParseKDtreeCommand (("KNN {1, 1} 1").toList))
    ∧ dispatchTrace (ParseKDtreeCommand (("ADD {1, 1} 1").toList))
        = [.lockEv, .insertEv [1, 1] 1, .unlockEv]
    ∧ dispatchTracePart000 (ParseKDtreeCommand (("ADD {1, 1} 1").toList))
        = [.insertEv [1, 1] 1]
    ∧ StoreEvent.lockEv ∉ dispatchTracePart000 (ParseKDtreeCommand (("ADD {1, 1} 1").toList)) := by
  decide

/-- Claim C5.  Every trimmed line exactly of one of the four canonical shapes
parses as a valid command with the matching action, the point decoded from
the two digit groups and the payload decoded from the trailing digits; and a
point without the literal comma-space separator, such as the 3,4 form, does
not match the point pattern anywhere.  The numeric bounds keep the values in
the range where the source's Atoi does not clamp and its float64 conversion
is exact. -/
theorem C5_canonical_parse (dx dy dn : List Char)
    (hdx : dx.all Char.isDigit = true) (hdxn : dx ≠ []) (hdxv : digitsVal dx < 2 ^ 53)
    (hdy : dy.all Char.isDigit = true) (hdyn : dy ≠ []) (hdyv : digitsVal dy < 2 ^ 53)
    (hdn : dn.all Char.isDigit = true) (hdnn : dn ≠ []) (hdnv : digitsVal dn < 2 ^ 53) :
    ((ParseKDtreeCommand (fullLine kwADD dx dy dn)).valid = true
      ∧ (ParseKDtreeCommand (fullLine kwADD dx dy dn)).action = kwADD
      ∧ (ParseKDtreeCommand (fullLine kwADD dx dy dn)).point
          = [(digitsVal dx : Int), (digitsVal dy : Int)]
      ∧ (ParseKDtreeCommand (fullLine kwADD dx dy dn)).data.value = (digitsVal dn : Int))
    ∧ ((ParseKDtreeCommand (fullLine kwKNN dx dy dn)).valid = true
      ∧ (ParseKDtreeCommand (fullLine kwKNN dx dy dn)).action = kwKNN
      ∧ (ParseKDtreeCommand (fullLine kwKNN dx dy dn)).point
          = [(digitsVal dx : Int), (digitsVal dy : Int)]
      ∧ (ParseKDtreeCommand (fullLine kwKNN dx dy dn)).data.value = (digitsVal dn : Int))
    ∧ ((ParseKDtreeCommand (delLine dx dy)).valid = true
      ∧ (ParseKDtreeCommand (delLine dx dy)).action = kwDEL
      ∧ (ParseKDtreeCommand (delLine dx dy)).point
          = [(digitsVal dx : Int), (digitsVal dy : Int)])
    ∧ ((ParseKDtreeCommand kwEND).valid = true ∧ (ParseKDtreeCommand kwEND).action = kwEND)
    ∧ findPoint (("{3,4}").toList) = none := by
  have hx := Atoi_of_digits hdx hdxn (by omega)
  have hy := Atoi_of_digits hdy hdyn (by omega)
  have hn := Atoi_of_digits hdn hdnn (by omega)
  refine ⟨?_, ?_, ?_, ⟨by decide, by decide⟩, by decide⟩
  · rw [parse_fullLine kwADD dx dy dn (Or.inl rfl) hdx hdxn hdy hdyn hdn hdnn]
    exact ⟨rfl, rfl, by simp [hx, hy], by simp [hn]⟩
  · rw [parse_fullLine kwKNN dx dy dn (Or.inr rfl) hdx hdxn hdy hdyn hdn hdnn]
    exact ⟨rfl, rfl, by simp [hx, hy], by simp [hn]⟩
  · have htrim : trimSpace (delLine dx dy) = delLine dx dy := by
      simpa [delLine] using trim_delLineG dx dy []
    obtain ⟨dat, pos, hP⟩ := parseBuffer_delG dx dy [] hdx hdxn hdy hdyn
    have hPP : ParseKDtreeCommand (delLine dx dy)
        = ⟨delLineG dx dy [], pos, kwDEL, [Atoi dx, Atoi dy], dat, true⟩ := by
      rw [ParseKDtreeCommand, htrim]
      exact hP
    rw [hPP]
    exact ⟨rfl, rfl, by simp [hx, hy]⟩

/-- Claim C5, witness at concrete digit groups. -/
theorem C5_witness :
    (ParseKDtreeCommand (fullLine kwADD ['3'] ['4'] ['7'])).valid = true
    ∧ (ParseKDtreeCommand (fullLine kwADD ['3'] ['4'] ['7'])).point
        = [(digitsVal ['3'] : Int), (digitsVal ['4'] : Int)]
    ∧ (ParseKDtreeCommand (delLine ['3'] ['4'])).action = kwDEL := by
  have h := C5_canonical_parse ['3'] ['4'] ['7'] (by decide) (by decide) (by decide)
    (by decide) (by decide) (by decide) (by decide) (by decide) (by decide)
  exact ⟨h.1.1, h.1.2.2.1, h.2.2.1.2.1⟩

/-- Claim C6 (amended).  In the daemon.go variant every session that receives
a valid End command gets the farewell response and the loop then closes the
connection — the farewell is written before the close.  The original
universal claim fails on the part_000 variant, which closes without any
farewell (`C6_counterexample`). -/
theorem C6_amended_farewell (st : Store) (s : List Char)
    (hv : (ParseKDtreeCommand s).valid = true)
    (ha : (ParseKDtreeCommand s).action = kwEND) :
    sessionStep st (.line s) = ⟨[byeMsg], st, .closeConn, true⟩ :=
  sessionStep_end st s hv ha

/-- Claim C6, counterexample: the part_000 variant leaves the loop on END —
closing the connection — with no farewell response at all. -/
theorem C6_counterexample :
    sessionStepPart000 [] (.line (("END").toList)) = ⟨[], [], .closeConn, true⟩
    ∧ (sessionStepPart000 [] (.line (("END").toList))).responses = [] := by
  decide

/-- Claim C6, witness: a concrete END line in the daemon.go variant. -/
theorem C6_witness :
    sessionStep [] (.line (("END").toList)) = ⟨[byeMsg], [], .closeConn, true⟩ :=
  C6_amended_farewell [] (("END").toList) (by decide) (by decide)

/-- Claim C7.  The modelled KNearest returns an empty sequence for k at most
0, returns min k (size) records, in ascending (squared, hence Euclidean)
distance from the query, all drawn from the store, the whole store (as a
permutation) when it holds at most k records; and the daemon.go session step
on the boundary line KNN at the origin with k = 0 responds with the rendering
of the empty result whatever the store holds. -/
theorem C7_knearest_spec (st : Store) (p : List Int) (k : Int) :
    (k ≤ 0 → KNearest st p k = [])
    ∧ (KNearest st p k).length = min k.toNat st.length
    ∧ (KNearest st p k).Pairwise (fun a b => dist2 p a.point ≤ dist2 p b.point)
    ∧ (∀ r, r ∈ KNearest st p k → r ∈ st)
    ∧ (st.length ≤ k.toNat → (KNearest st p k).Perm st)
    ∧ sessionStep st (.line (("KNN {0, 0} 0").toList))
        = ⟨[knnMsg []], st, .continueLoop, true⟩ := by
  refine ⟨?_, ?_, ?_, ?_, ?_, sessionStep_knn_zero st⟩
  · intro hk
    unfold KNearest
    rw [if_pos hk]
  · unfold KNearest
    by_cases hk : k ≤ 0
    · rw [if_pos hk, Int.toNat_of_nonpos hk]
      simp
    · rw [if_neg hk, List.length_take, length_sortByDist]
  · unfold KNearest
    by_cases hk : k ≤ 0
    · rw [if_pos hk]
      simp
    · rw [if_neg hk]
      exact List.Pairwise.sublist (List.take_sublist _ _) (pairwise_sortByDist p st)
  · intro r hr
    unfold KNearest at hr
    by_cases hk : k ≤ 0
    · rw [if_pos hk] at hr
      simp at hr
    · rw [if_neg hk] at hr
      exact (perm_sortByDist p st).subset (List.take_subset _ _ hr)
  · intro hlen
    unfold KNearest
    by_cases hk : k ≤ 0
    · rw [if_pos hk]
      have h0 : st = [] := by
        rw [Int.toNat_of_nonpos hk] at hlen
        exact List.length_eq_zero.mp (by omega)
      rw [h0]
    · rw [if_neg hk]
      rw [List.take_of_length_le (by rw [length_sortByDist]; exact hlen)]
      exact perm_sortByDist p st

/-- Claim C7, witness at the boundary instance. -/
theorem C7_witness :
    KNearest [] [0, 0] 0 = []
    ∧ (KNearest [] [0, 0] 0).Perm []
    ∧ sessionStep [] (.line (("KNN {0, 0} 0").toList))
        = ⟨[knnMsg []], [], .continueLoop, true⟩ := by
  have h := C7_knearest_spec [] [0, 0] 0
  exact ⟨h.1 (by decide), h.2.2.2.2.1 (by decide), h.2.2.2.2.2⟩

/-- Claim C8.  A DEL dispatch always acknowledges with the deleted response
and removes the parsed point; removing a point with no matching records is a
no-op on the store; and repeating the same DEL line yields the identical
acknowledgment and leaves the store where the first call put it. -/
theorem C8_delete_idempotent (st : Store) (s : List Char) (p : List Int)
    (hv : (ParseKDtreeCommand s).valid = true)
    (ha : (ParseKDtreeCommand s).action = kwDEL)
    (hp : (ParseKDtreeCommand s).point = p) :
    sessionStep st (.line s) = ⟨[deletedMsg p], Remove st p, .continueLoop, true⟩
    ∧ ((∀ r ∈ st, r.point ≠ p) → Remove st p = st)
    ∧ sessionStep (Remove st p) (.line s)
        = ⟨[deletedMsg p], Remove (Remove st p) p, .continueLoop, true⟩
    ∧ Remove (Remove st p) p = Remove st p := by
  subst hp
  exact ⟨sessionStep_del st s hv ha, remove_no_match st _,
    sessionStep_del _ s hv ha, remove_idem st _⟩

/-- Claim C8, witness: deleting a point twice from an empty store. -/
theorem C8_witness :
    sessionStep [] (.line (("DEL {5, 5}").toList))
      = ⟨[deletedMsg [5, 5]], Remove [] [5, 5], .continueLoop, true⟩
    ∧ Remove (Remove ([] : Store) [5, 5]) [5, 5] = Remove [] [5, 5] := by
  have h := C8_delete_idempotent [] (("DEL {5, 5}").toList) [5, 5]
    (by decide) (by decide) (by decide)
  exact ⟨h.1, h.2.2.2⟩

/-- Claim C9.  A structurally complete DEL command followed by arbitrary
trailing text still parses as a valid Delete of the same point: the trailing
garbage is ignored, not rejected. -/
theorem C9_del_trailing_garbage (dx dy g : List Char)
    (hdx : dx.all Char.isDigit = true) (hdxn : dx ≠ []) (hdxv : digitsVal dx < 2 ^ 53)
    (hdy : dy.all Char.isDigit = true) (hdyn : dy ≠ []) (hdyv : digitsVal dy < 2 ^ 53) :
    (ParseKDtreeCommand (delLine dx dy ++ g)).valid = true
    ∧ (ParseKDtreeCommand (delLine dx dy ++ g)).action = kwDEL
    ∧ (ParseKDtreeCommand (delLine dx dy ++ g)).point
        = [(digitsVal dx : Int), (digitsVal dy : Int)] := by
  have hx := Atoi_of_digits hdx hdxn (by omega)
  have hy := Atoi_of_digits hdy hdyn (by omega)
  rw [delLineG_eq, ParseKDtreeCommand, trim_delLineG]
  obtain ⟨dat, pos, hP⟩ :=
    parseBuffer_delG dx dy ((g.reverse.dropWhile isSpaceChar).reverse) hdx hdxn hdy hdyn
  rw [hP]
  exact ⟨rfl, rfl, by simp [hx, hy]⟩

/-- Claim C9, witness with concrete trailing junk. -/
theorem C9_witness :
    (ParseKDtreeCommand (delLine ['1'] ['2'] ++ (" trailing junk").toList)).valid = true
    ∧ (ParseKDtreeCommand (delLine ['1'] ['2'] ++ (" trailing junk").toList)).action = kwDEL := by
  have h := C9_del_trailing_garbage ['1'] ['2'] ((" trailing junk").toList)
    (by decide) (by decide) (by decide) (by decide) (by decide) (by decide)
  exact ⟨h.1, h.2.1⟩

/-- Claim C10.  Every token the point search returns carries exactly two
digit runs, so the indexing of the first and second run in `MakePoint` —
which the parser applies exactly to such tokens — is always in bounds, and
the parse never panics. -/
theorem C10_makepoint_safe (s m : List Char) (h : findPoint s = some m) :
    2 ≤ (findAllDigitRuns m).length
    ∧ ∃ d1 d2, m = pointTok d1 d2 ∧ findAllDigitRuns m = [d1, d2]
      ∧ MakePoint m = [Atoi d1, Atoi d2] := by
  obtain ⟨d1, d2, rfl, h1n, h2n, h1, h2⟩ := findPoint_some h
  have hruns := findAllDigitRuns_tok h1 h1n h2 h2n
  exact ⟨by rw [hruns]; simp, d1, d2, rfl, hruns, makePoint_tok h1 h1n h2 h2n⟩

/-- Claim C10, witness at a concrete point token. -/
theorem C10_witness : 2 ≤ (findAllDigitRuns (("{3, 4}").toList)).length :=
  (C10_makepoint_safe (("{3, 4}").toList) (("{3, 4}").toList) (by decide)).1

end Kdtreed
